import Mathlib

/-!
Verification of the critical-path-method (CPM) scheduling engine of
`src/index.py` against its natural-language specification.

The engine consists of three pure functions over task records:
`calculate_critical_path`, `find_earliest_latest_start_finish`, and the
entry point `on_calculate_and_draw`.  Everything below is a shallow
embedding of that code: task records are parsed tuples, Python dicts that
are only read by key become association lists (`List (String × Nat)`), the
`defaultdict(int)` of indegrees becomes a function `String → Int`, and the
Kahn worklist loop becomes a fuel-indexed recursion (the fuel
`tasks.length` is proved sufficient for all runs that the theorems touch;
each task name is dequeued at most once).

Python raises `KeyError` on a missing dict key.  Most reads performed by
the code can never miss (dependency finish dates are written before they
are read, in topological order — proved via the Kahn invariants), and
those are modelled as total lookups with default 0, exercised only where
the key is proved present.  The one read that CAN miss on reachable
inputs is `latest_start[successor]` in the backward-pass block (lines
140–143/251–254): a successor of a scheduled task may itself be
unscheduled (cyclic or dangling inputs).  Inside
`calculate_critical_path` that block is a dead store for the returned
value but still executes, so its escaping `KeyError` is modelled
explicitly (`backwardPassE`, returning `none`); Python's `max()` on an
empty sequence raising `ValueError` is likewise modelled as
`Option.none` (`values_max`).
-/

namespace CPM

/-- A task record as parsed from a row of the table: the first three
components of the Python 7-tuple `(task, depends, duration, _, _, _, _)`,
with the `depends` string already split.  Durations are the non-negative
integers that `int(duration)` produces for the valid inputs in scope. -/
structure Task where
  name : String
  depends : List String
  duration : Nat
deriving DecidableEq, Repr

/-- Python's `s.split(', ')` on the character list of `s`: cut at every
occurrence of the two-character separator `", "`, keeping empty pieces,
exactly as `str.split` does.  (Lean's own `String.splitOn` computes the
same lists but is defined by well-founded recursion; this structural
version reduces inside the kernel.) -/
def splitCommaSpace : List Char → List Char → List (List Char)
  | [], acc => [acc.reverse]
  | [c], acc => [(c :: acc).reverse]
  | c₁ :: c₂ :: rest, acc =>
      if c₁ = ',' ∧ c₂ = ' ' then acc.reverse :: splitCommaSpace rest []
      else splitCommaSpace (c₂ :: rest) (c₁ :: acc)

/-- `depends.split(', ') if depends != '-' else []`: the parsing of one
raw table row into a `Task` (lines 99–105 of `src/index.py`). -/
def parse_task (name depends : String) (duration : Nat) : Task :=
  { name := name
    depends :=
      if depends = "-" then []
      else (splitCommaSpace depends.data []).map (fun cs => String.mk cs)
    duration := duration }

/-- Reading a Python dict represented as an association list: the value at
the first entry whose key matches, default 0.  On every lookup performed
by the code on the inputs covered by the theorems the key is present, so
the default is never observed (Python would raise `KeyError` there). -/
def lookupN (l : List (String × Nat)) (x : String) : Nat :=
  ((l.find? (fun p => p.1 == x)).map (fun p => p.2)).getD 0

/-- `task_dict[x]`: the task record with name `x`.  The task lists in all
theorems below have pairwise-distinct names (the duplicate-free invariant
of the spec), where this agrees with the Python dict comprehension of
lines 99–105/208–214.  The fallback is never observed on those inputs. -/
def task_info (tasks : List Task) (x : String) : Task :=
  (tasks.find? (fun t => t.name == x)).getD { name := x, depends := [], duration := 0 }

/-- `adj_list[d]` (lines 110–115/221–226): for each task `t` (in input
order) one copy of `t.name` per occurrence of `d` in `t.depends`. -/
def adj_list (tasks : List Task) (d : String) : List String :=
  (tasks.map (fun t => (t.depends.filter (fun s => s == d)).map (fun _ => t.name))).flatten

/-- `indegrees[x]` after the build loop of lines 112–115/223–226: the
number of dependency edges into `x`, i.e. the length of `x`'s dependency
list, and 0 for names that are not tasks (`defaultdict(int)`).  Int-valued
because Python's counters are. -/
def indegrees (tasks : List Task) (x : String) : Int :=
  match tasks.find? (fun t => t.name == x) with
  | some t => (t.depends.length : Int)
  | none => 0

/-- The inner loop of Kahn's algorithm (lines 124–127/235–238): decrement
the indegree of each neighbour in turn, appending a neighbour to the queue
at the moment its indegree reaches exactly 0. -/
def relax : List String → (String → Int) → List String → (String → Int) × List String
  | [], indeg, queue => (indeg, queue)
  | n :: rest, indeg, queue =>
      relax rest (fun x => if x = n then indeg x - 1 else indeg x)
        (if indeg n - 1 = 0 then queue ++ [n] else queue)

/-- The Kahn worklist loop (lines 120–127/231–238), fuel-indexed to make
the recursion structural.  The loop dequeues each task name at most once,
so `tasks.length` units of fuel (as supplied by `topo_order`) always
suffice; the `fuel = 0` branch is dead code for those runs. -/
def kahnAux (tasks : List Task) (fuel : Nat) (indeg : String → Int)
    (queue : List String) : List String :=
  match queue with
  | [] => []
  | t :: rest =>
    match fuel with
    | 0 => []
    | fuel' + 1 =>
        let s := relax (adj_list tasks t) indeg rest
        t :: kahnAux tasks fuel' s.1 s.2

/-- `topo_order` (lines 117–127/228–238): Kahn's algorithm seeded with the
zero-indegree tasks in input order. -/
def topo_order (tasks : List Task) : List String :=
  kahnAux tasks tasks.length (indegrees tasks)
    ((tasks.filter (fun t => indegrees tasks t.name = 0)).map (fun t => t.name))

/-- The start date assigned by the forward pass (lines 129–133/240–244):
0 for a task with no dependencies, otherwise the maximum finish date of
its dependencies (Python's `max` over a non-empty sequence of naturals,
written as a fold with neutral element 0). -/
def sval (tasks : List Task) (ed : List (String × Nat)) (t : String) : Nat :=
  let info := task_info tasks t
  if info.depends = [] then 0
  else (info.depends.map (fun d => lookupN ed d)).foldl Nat.max 0

/-- The forward pass (lines 129–134/240–245): walk the topological order,
extending `start_dates` (first component) and `end_dates` (second) with
`end = start + duration`. -/
def forwardPass (tasks : List Task) :
    List String → List (String × Nat) × List (String × Nat) →
      List (String × Nat) × List (String × Nat)
  | [], p => p
  | t :: rest, p =>
      let s := sval tasks p.2 t
      forwardPass tasks rest
        (p.1 ++ [(t, s)], p.2 ++ [(t, s + (task_info tasks t).duration)])

/-- The backward pass loop (lines 140–143/251–254) over the reversed
topological order: fold `min` of the successors' latest starts into the
task's latest finish (reading the current value each step, exactly as the
Python inner loop does), then recompute the task's latest start. -/
def backwardPass (tasks : List Task) :
    List String → List (String × Nat) × List (String × Nat) →
      List (String × Nat) × List (String × Nat)
  | [], p => p
  | t :: rest, p =>
      let lfT := (adj_list tasks t).foldl (fun acc s => Nat.min acc (lookupN p.2 s)) (lookupN p.1 t)
      backwardPass tasks rest
        (p.1.map (fun q => if q.1 == t then (q.1, lfT) else q),
         p.2.map (fun q => if q.1 == t then (q.1, lfT - (task_info tasks t).duration) else q))

/-- Reading a Python dict entry that may be absent: `none` models the
`KeyError` raised by `latest_start[successor]` (line 142/253) when the
successor never entered the schedule. -/
def lookupE (l : List (String × Nat)) (x : String) : Option Nat :=
  (l.find? (fun p => p.1 == x)).map (fun p => p.2)

/-- The inner successor loop of lines 141–142: fold `min` over the
successors' latest starts, aborting with `none` (`KeyError`) at the
first successor that is not a key of `latest_start`. -/
def foldMinE (ls : List (String × Nat)) : List String → Nat → Option Nat
  | [], acc => some acc
  | s :: rest, acc =>
      match lookupE ls s with
      | none => none
      | some v => foldMinE ls rest (Nat.min acc v)

/-- The backward-pass block of lines 136–143 as it executes inside
`calculate_critical_path`: the same state updates as `backwardPass`, but
with the `latest_start[successor]` read fallible.  Its numeric result is
dead — the function returns only the critical path — yet the block still
runs, and its `KeyError` escapes whenever a scheduled task has an
unscheduled successor.  (`latest_finish[task]` itself and the forward
reads can never miss: every `topo_order` member is a key of every dict.) -/
def backwardPassE (tasks : List Task) :
    List String → List (String × Nat) × List (String × Nat) →
      Option (List (String × Nat) × List (String × Nat))
  | [], p => some p
  | t :: rest, p =>
      match foldMinE p.2 (adj_list tasks t) (lookupN p.1 t) with
      | none => none
      | some lfT =>
          backwardPassE tasks rest
            (p.1.map (fun q => if q.1 == t then (q.1, lfT) else q),
             p.2.map (fun q => if q.1 == t then (q.1, lfT - (task_info tasks t).duration) else q))

/-- `find_earliest_latest_start_finish` (lines 207–256): topological sort,
forward pass, then backward pass with `latest_finish` initialised to a
copy of `end_dates` and `latest_start` to `end - duration` (lines
247–249).  Returns `(start_dates, end_dates, latest_start, latest_finish)`.
The backward block here is the same code as in `calculate_critical_path`
(lines 251–254 = 140–143) and raises the same `KeyError` on the same
inputs; it is modelled with the total `backwardPass` because every
theorem stated about this function's output restricts to valid inputs,
on which the missing-key read is proved unreachable — the error path of
the shared block is modelled once, in `backwardPassE`. -/
def find_earliest_latest_start_finish (tasks : List Task) :
    List (String × Nat) × List (String × Nat) × List (String × Nat) × List (String × Nat) :=
  let topo := topo_order tasks
  let sd := (forwardPass tasks topo ([], [])).1
  let ed := (forwardPass tasks topo ([], [])).2
  let lf_ls := backwardPass tasks topo.reverse
    (ed, ed.map (fun q => (q.1, q.2 - (task_info tasks q.1).duration)))
  (sd, ed, lf_ls.2, lf_ls.1)

/-- Python's `max(values)`: `none` models the `ValueError` raised on an
empty sequence (line 147: `max(end_dates.values())`). -/
def values_max : List Nat → Option Nat
  | [] => none
  | v :: vs => some (vs.foldl Nat.max v)

/-- The critical-path extraction loop (lines 146–153), walking
`topo_order[::-1]`: a task whose finish date equals the running target end
time is selected and the target is reduced by its duration. -/
def extractLoop (tasks : List Task) (ed : List (String × Nat)) :
    List String → Nat → List String
  | [], _ => []
  | t :: rest, endTime =>
      if lookupN ed t = endTime then
        t :: extractLoop tasks ed rest (endTime - (task_info tasks t).duration)
      else extractLoop tasks ed rest endTime

/-- `calculate_critical_path` (lines 98–155).  It rebuilds the graph,
topological order and forward dates exactly as
`find_earliest_latest_start_finish` does, executes the backward-pass
block of lines 136–143 (whose numeric result is unused but whose
`KeyError` escapes), then extracts the critical path.  `none` models an
uncaught exception: the `KeyError` of the backward block, or the
`ValueError` of `max(end_dates.values())` when `end_dates` is empty. -/
def calculate_critical_path (tasks : List Task) : Option (List String × Nat) :=
  let topo := topo_order tasks
  let ed := (forwardPass tasks topo ([], [])).2
  match backwardPassE tasks topo.reverse
      (ed, ed.map (fun q => (q.1, q.2 - (task_info tasks q.1).duration))) with
  | none => none
  | some _ =>
      match values_max (ed.map (fun p => p.2)) with
      | none => none
      | some endTime => some ((extractLoop tasks ed topo.reverse endTime).reverse, endTime)

/-- Projections of the result of `find_earliest_latest_start_finish`,
named after the Python locals. -/
def start_dates (tasks : List Task) : List (String × Nat) :=
  (find_earliest_latest_start_finish tasks).1

/-- The `end_dates` component (earliest finish). -/
def end_dates (tasks : List Task) : List (String × Nat) :=
  (find_earliest_latest_start_finish tasks).2.1

/-- The `latest_start` component. -/
def latest_start (tasks : List Task) : List (String × Nat) :=
  (find_earliest_latest_start_finish tasks).2.2.1

/-- The `latest_finish` component. -/
def latest_finish (tasks : List Task) : List (String × Nat) :=
  (find_earliest_latest_start_finish tasks).2.2.2

/-- The observable outcome of one press of "Calculate and Draw". -/
inductive EngineOutcome where
  /-- `if not tasks: return` — the handler returns without touching the
  engine, the table or the labels. -/
  | noOp : EngineOutcome
  /-- An uncaught exception escaping from the engine. -/
  | failure : EngineOutcome
  /-- The schedule tuple together with the critical path and the total
  duration, as written back into the table and the labels. -/
  | output :
      (List (String × Nat) × List (String × Nat) × List (String × Nat) × List (String × Nat)) →
      List String → Nat → EngineOutcome
deriving Repr

/-- `on_calculate_and_draw` (lines 258–286): early return on an empty task
table, otherwise run both engine functions and publish their results. -/
def on_calculate_and_draw (tasks : List Task) : EngineOutcome :=
  if tasks = [] then EngineOutcome.noOp
  else
    match calculate_critical_path tasks with
    | none => EngineOutcome.failure
    | some r => EngineOutcome.output (find_earliest_latest_start_finish tasks) r.1 r.2

/-- A valid input in the sense the specification's claims presuppose:
task names are pairwise distinct, and Kahn's sort visits every task —
which is precisely the code's and the spec's own criterion (§4.2) for "no
cycle and no unresolved task": `topoOrder` not shorter than the task set.
Resolvability of every dependency is a consequence (proved below), not an
extra assumption. -/
def validInput (tasks : List Task) : Prop :=
  (tasks.map Task.name).Nodup ∧ (topo_order tasks).length = tasks.length

instance : DecidablePred validInput := fun tasks => by
  unfold validInput; infer_instance

end CPM

namespace CPM

/-! ### Basic facts about names, lookups and the dependency graph -/

theorem name_inj {tasks : List Task} (hn : (tasks.map Task.name).Nodup)
    {t u : Task} (ht : t ∈ tasks) (hu : u ∈ tasks) (h : t.name = u.name) : t = u :=
  List.inj_on_of_nodup_map hn ht hu h

theorem nodup_names_head {a : Task} {ts : List Task}
    (hn : ((a :: ts).map Task.name).Nodup) : a.name ∉ ts.map Task.name := by
  rw [List.map_cons, List.nodup_cons] at hn
  exact hn.1

theorem nodup_names_tail {a : Task} {ts : List Task}
    (hn : ((a :: ts).map Task.name).Nodup) : (ts.map Task.name).Nodup := by
  rw [List.map_cons, List.nodup_cons] at hn
  exact hn.2

theorem find?_name {tasks : List Task} (hn : (tasks.map Task.name).Nodup)
    {t : Task} (ht : t ∈ tasks) :
    tasks.find? (fun u => u.name == t.name) = some t := by
  induction tasks with
  | nil => cases ht
  | cons a ts ih =>
      rcases List.mem_cons.mp ht with rfl | hmem
      · simp [List.find?]
      · have hne : ¬(a.name == t.name) = true := by
          simp only [beq_iff_eq]
          intro hEq
          exact nodup_names_head hn
            (by simpa [hEq] using List.mem_map_of_mem Task.name hmem)
        simp only [List.find?, hne]
        exact ih (nodup_names_tail hn) hmem

theorem find?_name_none {tasks : List Task} {x : String}
    (h : ∀ t ∈ tasks, ¬t.name = x) :
    tasks.find? (fun u => u.name == x) = none := by
  apply List.find?_eq_none.mpr
  intro t ht
  simpa using h t ht

theorem task_info_eq {tasks : List Task} (hn : (tasks.map Task.name).Nodup)
    {t : Task} (ht : t ∈ tasks) : task_info tasks t.name = t := by
  simp [task_info, find?_name hn ht]

theorem indegrees_eq {tasks : List Task} (hn : (tasks.map Task.name).Nodup)
    {t : Task} (ht : t ∈ tasks) :
    indegrees tasks t.name = (t.depends.length : Int) := by
  simp [indegrees, find?_name hn ht]

theorem indegrees_eq_zero {tasks : List Task} {x : String}
    (h : ∀ t ∈ tasks, ¬t.name = x) : indegrees tasks x = 0 := by
  simp [indegrees, find?_name_none h]

theorem mem_adj_list {tasks : List Task} {y x : String} :
    x ∈ adj_list tasks y ↔ ∃ t, t ∈ tasks ∧ t.name = x ∧ y ∈ t.depends := by
  simp only [adj_list, List.mem_flatten, List.mem_map]
  constructor
  · rintro ⟨l, ⟨t, ht, rfl⟩, hx⟩
    rcases List.mem_map.mp hx with ⟨s, hs, rfl⟩
    rcases List.mem_filter.mp hs with ⟨hsd, hsy⟩
    have hsy' : s = y := by simpa using hsy
    exact ⟨t, ht, rfl, hsy' ▸ hsd⟩
  · rintro ⟨t, ht, rfl, hy⟩
    refine ⟨_, ⟨t, ht, rfl⟩, ?_⟩
    exact List.mem_map.mpr ⟨y, List.mem_filter.mpr ⟨hy, by simp⟩, rfl⟩

theorem count_adj_list_eq_zero {tasks : List Task} {y n : String}
    (h : ∀ t ∈ tasks, ¬t.name = n) : (adj_list tasks y).count n = 0 := by
  rw [List.count_eq_zero]
  intro hmem
  rcases mem_adj_list.mp hmem with ⟨t, ht, hname, -⟩
  exact h t ht hname

theorem length_filter_beq (l : List String) (y : String) :
    (l.filter (fun s => s == y)).length = l.count y := by
  rw [← List.countP_eq_length_filter, ← List.count_eq_countP]

theorem count_adj_list {tasks : List Task} (hn : (tasks.map Task.name).Nodup)
    {u : Task} (hu : u ∈ tasks) (y : String) :
    (adj_list tasks y).count u.name = u.depends.count y := by
  induction tasks with
  | nil => cases hu
  | cons a ts ih =>
      have hsplit : adj_list (a :: ts) y =
          ((a.depends.filter (fun s => s == y)).map (fun _ => a.name)) ++ adj_list ts y := by
        simp [adj_list]
      have hcount_inner :
          ((a.depends.filter (fun s => s == y)).map (fun _ => a.name)).count u.name
            = if a.name = u.name then a.depends.count y else 0 := by
        rw [List.map_const', List.count_replicate, length_filter_beq]
        by_cases hname : a.name = u.name
        · simp [hname]
        · have : ¬(a.name == u.name) = true := by simpa using hname
          simp [hname, this]
      rcases List.mem_cons.mp hu with rfl | hmem
      · have hts : ∀ t ∈ ts, ¬t.name = u.name := by
          intro t ht hEq
          exact nodup_names_head hn
            (by simpa [hEq] using List.mem_map_of_mem Task.name ht)
        rw [hsplit, List.count_append, hcount_inner, count_adj_list_eq_zero hts]
        simp
      · have hne : ¬a.name = u.name := by
          intro hEq
          exact nodup_names_head hn
            (by simpa [hEq] using List.mem_map_of_mem Task.name hmem)
        rw [hsplit, List.count_append, hcount_inner, ih (nodup_names_tail hn) hmem]
        simp [hne]

/-! ### The specification of the inner Kahn loop `relax` -/

theorem relax_fst (ns : List String) :
    ∀ (indeg : String → Int) (queue : List String) (x : String),
      (relax ns indeg queue).1 x = indeg x - (ns.count x : Int) := by
  induction ns with
  | nil => intro indeg queue x; simp [relax]
  | cons n rest ih =>
      intro indeg queue x
      simp only [relax]
      rw [ih]
      by_cases hx : x = n
      · subst hx; simp [List.count_cons]; omega
      · have : ¬(n == x) = true := by simpa using fun h => hx h.symm
        simp [hx, List.count_cons, this]

theorem relax_snd_count (ns : List String) :
    ∀ (indeg : String → Int) (queue : List String) (y : String),
      ((relax ns indeg queue).2).count y =
        queue.count y +
          (if 1 ≤ indeg y ∧ indeg y ≤ (ns.count y : Int) then 1 else 0) := by
  induction ns with
  | nil =>
      intro indeg queue y
      simp only [relax, List.count_nil, Nat.cast_zero]
      split_ifs with h
      · omega
      · omega
  | cons n rest ih =>
      intro indeg queue y
      simp only [relax]
      rw [ih]
      by_cases hy : y = n
      · subst hy
        have hq : (if indeg y - 1 = 0 then queue ++ [y] else queue).count y
              = queue.count y + (if indeg y - 1 = 0 then 1 else 0) := by
          split_ifs <;> simp [List.count_append]
        rw [hq, List.count_cons]
        simp only [beq_self_eq_true, if_true, if_pos rfl]
        push_cast
        split_ifs <;> omega
      · have hbeq : ¬(n == y) = true := by simpa using fun h => hy h.symm
        have hcnt : (if indeg n - 1 = 0 then queue ++ [n] else queue).count y
            = queue.count y := by
          split_ifs <;> simp [List.count_append, List.count_singleton, hbeq]
        rw [hcnt, List.count_cons]
        simp [hy, hbeq]

end CPM

namespace CPM

/-! ### The Kahn loop invariant -/

/-- The number of dependencies in `deps` that are not yet dequeued: the
value the `indegrees` entry of the owning task holds mid-run. -/
def pending (deps done : List String) : Nat :=
  (deps.filter (fun d => decide (d ∉ done))).length

theorem pending_nil (deps : List String) : pending deps [] = deps.length := by
  simp [pending]

theorem pending_split {done : List String} {y : String} (hy : y ∉ done)
    (l : List String) :
    pending l done = pending l (done ++ [y]) + l.count y := by
  induction l with
  | nil => rfl
  | cons d l ih =>
      simp only [pending, List.filter_cons, List.count_cons] at ih ⊢
      by_cases hdy : d = y
      · subst hdy
        rw [if_pos (by simpa using hy), if_neg (by simp)]
        simp only [List.length_cons, beq_self_eq_true, if_true]
        omega
      · have hmem : (d ∉ done ++ [y]) ↔ (d ∉ done) := by simp [hdy]
        have hbeq : ¬(d == y) = true := by simpa using hdy
        by_cases hd : d ∈ done
        · rw [if_neg (by simpa using hd), if_neg (by simp [hd]), if_neg hbeq]
          omega
        · rw [if_pos (by simpa using hd), if_pos (by simpa using hmem.mpr hd),
            if_neg hbeq]
          simp only [List.length_cons]
          omega

theorem pending_eq_zero_iff {l done : List String} :
    pending l done = 0 ↔ ∀ d ∈ l, d ∈ done := by
  simp only [pending, List.length_eq_zero, List.filter_eq_nil_iff,
    decide_eq_true_eq]
  constructor
  · intro h d hd
    by_contra hnot
    exact h d hd hnot
  · intro h d hd
    exact fun hnot => hnot (h d hd)

theorem pending_eq_count {done : List String} {y : String} (hy : y ∉ done)
    {l : List String} (hall : ∀ d ∈ l, d ∈ done ∨ d = y) :
    pending l done = l.count y := by
  induction l with
  | nil => rfl
  | cons d l ih =>
      have ih' := ih (fun d hd => hall d (List.mem_cons_of_mem _ hd))
      simp only [pending, List.filter_cons, List.count_cons] at ih' ⊢
      by_cases hdy : d = y
      · subst hdy
        rw [if_pos (by simpa using hy)]
        simp only [List.length_cons, beq_self_eq_true, if_true]
        omega
      · have hd : d ∈ done := by
          rcases hall d (List.mem_cons_self d l) with h | h
          · exact h
          · exact absurd h hdy
        have hbeq : ¬(d == y) = true := by simpa using hdy
        rw [if_neg (by simpa using hd), if_neg hbeq]
        omega

/-- The invariant maintained by the Kahn worklist loop of lines
117–127/228–238: `done` is the part of `topo_order` already produced,
`queue` the pending zero-indegree tasks, `indeg` the current state of the
`indegrees` dict. -/
structure KahnInv (tasks : List Task) (done queue : List String)
    (indeg : String → Int) : Prop where
  nodup : (done ++ queue).Nodup
  mem_names : ∀ x ∈ done ++ queue, ∃ t, t ∈ tasks ∧ t.name = x
  indeg_task : ∀ t ∈ tasks, indeg t.name = (pending t.depends done : Int)
  indeg_other : ∀ x, (∀ t ∈ tasks, ¬t.name = x) → indeg x = 0
  zero_mem : ∀ t ∈ tasks, (∀ d ∈ t.depends, d ∈ done) → t.name ∈ done ++ queue
  deps_done : ∀ x ∈ done ++ queue, ∀ t ∈ tasks, t.name = x → ∀ d ∈ t.depends, d ∈ done
  ordered : ∀ l₁ x l₂, done = l₁ ++ x :: l₂ →
    ∀ t ∈ tasks, t.name = x → ∀ d ∈ t.depends, d ∈ l₁

theorem append_singleton_split {l₁ l₂ done : List String} {x t : String}
    (hEq : done ++ [t] = l₁ ++ x :: l₂) :
    (l₂ = [] ∧ x = t ∧ l₁ = done) ∨
      (∃ l₂', l₂ = l₂' ++ [t] ∧ done = l₁ ++ x :: l₂') := by
  rcases l₂.eq_nil_or_concat with rfl | ⟨l₂', y, rfl⟩
  · left
    have h := List.append_inj' hEq.symm (by rfl)
    have hx : x = t := by simpa using h.2
    exact ⟨rfl, hx, h.1⟩
  · right
    have h' : (l₁ ++ x :: l₂') ++ [y] = done ++ [t] := by simpa using hEq.symm
    have h := List.append_inj' h' (by rfl)
    have hy : y = t := by simpa using h.2
    exact ⟨l₂', by rw [hy, List.concat_eq_append], h.1.symm⟩

end CPM

namespace CPM

theorem KahnInv.step {tasks : List Task} (hn : (tasks.map Task.name).Nodup)
    {done queue : List String} {indeg : String → Int} {t : String}
    (h : KahnInv tasks done (t :: queue) indeg) :
    KahnInv tasks (done ++ [t])
      (relax (adj_list tasks t) indeg queue).2
      (relax (adj_list tasks t) indeg queue).1 := by
  obtain ⟨hdone_nodup, hcons_nodup, hdisj⟩ := List.nodup_append.mp h.nodup
  have htd : t ∉ done := fun hmem => hdisj hmem (List.mem_cons_self t queue)
  have htq : t ∉ queue := (List.nodup_cons.mp hcons_nodup).1
  have hfst : ∀ x, (relax (adj_list tasks t) indeg queue).1 x
      = indeg x - ((adj_list tasks t).count x : Int) :=
    fun x => relax_fst (adj_list tasks t) indeg queue x
  have hsnd : ∀ y, (relax (adj_list tasks t) indeg queue).2.count y
      = queue.count y +
        (if 1 ≤ indeg y ∧ indeg y ≤ ((adj_list tasks t).count y : Int) then 1 else 0) :=
    fun y => relax_snd_count (adj_list tasks t) indeg queue y
  have hzero : ∀ u, u ∈ tasks → u.name ∈ done ++ t :: queue → indeg u.name = 0 := by
    intro u hu hmem
    rw [h.indeg_task u hu, pending_eq_zero_iff.mpr (h.deps_done _ hmem u hu rfl)]
    rfl
  have hpos_not_mem : ∀ y, 1 ≤ indeg y → y ∉ done ++ t :: queue := by
    intro y h1 hmem
    obtain ⟨u, hu, rfl⟩ := h.mem_names y hmem
    have := hzero u hu hmem
    omega
  have hpos_name : ∀ y, 1 ≤ indeg y → ∃ u, u ∈ tasks ∧ u.name = y := by
    intro y h1
    by_contra hno
    push_neg at hno
    have := h.indeg_other y (fun u hu => hno u hu)
    omega
  have hQ1mem : ∀ y, y ∈ (relax (adj_list tasks t) indeg queue).2 ↔
      y ∈ queue ∨ (1 ≤ indeg y ∧ indeg y ≤ ((adj_list tasks t).count y : Int)) := by
    intro y
    constructor
    · intro hy
      have hcnt : 0 < (relax (adj_list tasks t) indeg queue).2.count y :=
        List.count_pos_iff.mpr hy
      rw [hsnd y] at hcnt
      by_cases htrig : 1 ≤ indeg y ∧ indeg y ≤ ((adj_list tasks t).count y : Int)
      · exact Or.inr htrig
      · rw [if_neg htrig] at hcnt
        exact Or.inl (List.count_pos_iff.mp (by omega))
    · intro hy
      apply List.count_pos_iff.mp
      rw [hsnd y]
      rcases hy with hy | hy
      · have := List.count_pos_iff.mpr hy
        omega
      · rw [if_pos hy]
        omega
  refine ⟨?_, ?_, ?_, ?_, ?_, ?_, ?_⟩
  · -- nodup
    rw [List.nodup_iff_count_le_one]
    intro y
    rw [List.count_append, List.count_append, hsnd y, List.count_singleton]
    by_cases htrig : 1 ≤ indeg y ∧ indeg y ≤ ((adj_list tasks t).count y : Int)
    · have hnm := hpos_not_mem y htrig.1
      have h1 : y ∉ done := fun hc => hnm (List.mem_append_left _ hc)
      have h2 : ¬(t == y) = true := by
        simpa using fun hc => hnm (List.mem_append_right _ (by simp [hc]))
      have h3 : y ∉ queue :=
        fun hc => hnm (List.mem_append_right _ (List.mem_cons_of_mem _ hc))
      rw [if_pos htrig, if_neg h2, List.count_eq_zero.mpr h1, List.count_eq_zero.mpr h3]
    · rw [if_neg htrig]
      have hold := List.nodup_iff_count_le_one.mp h.nodup y
      rw [List.count_append, List.count_cons] at hold
      omega
  · -- mem_names
    intro x hx
    rcases List.mem_append.mp hx with hx | hx
    · refine h.mem_names x ?_
      rcases List.mem_append.mp hx with hx | hx
      · exact List.mem_append_left _ hx
      · exact List.mem_append_right _ (List.mem_cons.mpr (Or.inl (by simpa using hx)))
    · rcases (hQ1mem x).mp hx with hx | hx
      · exact h.mem_names x (List.mem_append_right _ (List.mem_cons_of_mem _ hx))
      · exact hpos_name x hx.1
  · -- indeg_task
    intro u hu
    rw [hfst, h.indeg_task u hu, count_adj_list hn hu t]
    have := pending_split htd u.depends
    omega
  · -- indeg_other
    intro x hx
    rw [hfst, h.indeg_other x hx, count_adj_list_eq_zero hx]
    rfl
  · -- zero_mem
    intro u hu hall
    by_cases hcase : ∀ d ∈ u.depends, d ∈ done
    · have hmem := h.zero_mem u hu hcase
      rcases List.mem_append.mp hmem with hm | hm
      · exact List.mem_append_left _ (List.mem_append_left _ hm)
      · rcases List.mem_cons.mp hm with hm | hm
        · exact List.mem_append_left _ (List.mem_append_right _ (by simp [hm]))
        · exact List.mem_append_right _ ((hQ1mem u.name).mpr (Or.inl hm))
    · push_neg at hcase
      obtain ⟨d, hd, hdnot⟩ := hcase
      have hdt : d = t := by
        rcases List.mem_append.mp (hall d hd) with hm | hm
        · exact absurd hm hdnot
        · simpa using hm
      subst hdt
      have hallsplit : ∀ e ∈ u.depends, e ∈ done ∨ e = d := by
        intro e he
        rcases List.mem_append.mp (hall e he) with hm | hm
        · exact Or.inl hm
        · exact Or.inr (by simpa using hm)
      have hcnt : pending u.depends done = u.depends.count d :=
        pending_eq_count htd hallsplit
      have hcntpos : 0 < u.depends.count d := List.count_pos_iff.mpr hd
      have htrig : 1 ≤ indeg u.name ∧
          indeg u.name ≤ ((adj_list tasks d).count u.name : Int) := by
        rw [h.indeg_task u hu, hcnt, count_adj_list hn hu d]
        exact ⟨by exact_mod_cast hcntpos, le_refl _⟩
      exact List.mem_append_right _ ((hQ1mem u.name).mpr (Or.inr htrig))
  · -- deps_done
    intro x hx u hu hxu d hd
    rcases List.mem_append.mp hx with hx | hx
    · have hx' : x ∈ done ++ t :: queue := by
        rcases List.mem_append.mp hx with hx | hx
        · exact List.mem_append_left _ hx
        · exact List.mem_append_right _ (List.mem_cons.mpr (Or.inl (by simpa using hx)))
      exact List.mem_append_left _ (h.deps_done x hx' u hu hxu d hd)
    · rcases (hQ1mem x).mp hx with hx | hx
      · exact List.mem_append_left _
          (h.deps_done x (List.mem_append_right _ (List.mem_cons_of_mem _ hx)) u hu hxu d hd)
      · subst hxu
        have hpend := pending_split htd u.depends
        rw [h.indeg_task u hu, count_adj_list hn hu t] at hx
        have hzero' : pending u.depends (done ++ [t]) = 0 := by omega
        exact pending_eq_zero_iff.mp hzero' d hd
  · -- ordered
    intro l₁ x l₂ hEq u hu hxu d hd
    rcases append_singleton_split hEq with ⟨rfl, rfl, rfl⟩ | ⟨l₂', rfl, hdone⟩
    · exact h.deps_done x (List.mem_append_right _ (List.mem_cons_self x queue)) u hu hxu d hd
    · exact h.ordered l₁ x l₂' hdone u hu hxu d hd

end CPM

namespace CPM

theorem kahnInv_init {tasks : List Task} (hn : (tasks.map Task.name).Nodup) :
    KahnInv tasks []
      ((tasks.filter (fun t => indegrees tasks t.name = 0)).map (fun t => t.name))
      (indegrees tasks) := by
  refine ⟨?_, ?_, ?_, ?_, ?_, ?_, ?_⟩
  · have hsub : ((tasks.filter (fun t => indegrees tasks t.name = 0)).map
        (fun t => t.name)).Sublist (tasks.map Task.name) :=
      (List.filter_sublist tasks).map (fun t => t.name)
    simpa using hn.sublist hsub
  · intro x hx
    simp only [List.nil_append, List.mem_map, List.mem_filter] at hx
    obtain ⟨u, ⟨hu, -⟩, rfl⟩ := hx
    exact ⟨u, hu, rfl⟩
  · intro u hu
    rw [indegrees_eq hn hu, pending_nil]
  · intro x hx
    exact indegrees_eq_zero hx
  · intro u hu hall
    have hdeps : u.depends = [] :=
      List.eq_nil_iff_forall_not_mem.mpr
        (fun d hd => absurd (hall d hd) (List.not_mem_nil d))
    have hzero : indegrees tasks u.name = 0 := by
      rw [indegrees_eq hn hu, hdeps]
      rfl
    simp only [List.nil_append, List.mem_map, List.mem_filter]
    exact ⟨u, ⟨hu, by simpa using hzero⟩, rfl⟩
  · intro x hx u hu hxu d hd
    simp only [List.nil_append, List.mem_map, List.mem_filter] at hx
    obtain ⟨v, ⟨hv, hvzero⟩, rfl⟩ := hx
    have hz : indegrees tasks u.name = 0 := by rw [hxu]; simpa using hvzero
    rw [indegrees_eq hn hu] at hz
    have : u.depends = [] := List.length_eq_zero.mp (by exact_mod_cast hz)
    rw [this] at hd
    cases hd
  · intro l₁ x l₂ hEq
    exact absurd hEq.symm (List.append_ne_nil_of_right_ne_nil l₁ (by simp))

theorem kahnAux_inv {tasks : List Task} (hn : (tasks.map Task.name).Nodup) :
    ∀ (fuel : Nat) (done queue : List String) (indeg : String → Int),
      KahnInv tasks done queue indeg →
      tasks.length ≤ fuel + done.length →
      ∃ indeg', KahnInv tasks (done ++ kahnAux tasks fuel indeg queue) [] indeg' := by
  intro fuel
  induction fuel with
  | zero =>
      intro done queue indeg h hlen
      rcases queue with _ | ⟨t, rest⟩
      · exact ⟨indeg, by simpa [kahnAux] using h⟩
      · exfalso
        obtain ⟨hdone_nodup, -, hdisj⟩ := List.nodup_append.mp h.nodup
        have htd : t ∉ done := fun hmem => hdisj hmem (List.mem_cons_self t rest)
        have hsub : done ⊆ tasks.map Task.name := by
          intro x hx
          obtain ⟨u, hu, rfl⟩ := h.mem_names x (List.mem_append_left _ hx)
          exact List.mem_map_of_mem Task.name hu
        have hperm := (List.subperm_of_subset hdone_nodup hsub).perm_of_length_le
          (by simpa using hlen)
        obtain ⟨u, hu, rfl⟩ :=
          h.mem_names t (List.mem_append_right _ (List.mem_cons_self t rest))
        exact htd (hperm.mem_iff.mpr (List.mem_map_of_mem Task.name hu))
  | succ fuel ih =>
      intro done queue indeg h hlen
      rcases queue with _ | ⟨t, rest⟩
      · exact ⟨indeg, by simpa [kahnAux] using h⟩
      · have hstep := KahnInv.step hn h
        have hlen' : tasks.length ≤ fuel + (done ++ [t]).length := by
          simp only [List.length_append, List.length_singleton]
          omega
        obtain ⟨indeg', hinv⟩ := ih (done ++ [t]) _ _ hstep hlen'
        refine ⟨indeg', ?_⟩
        have hunfold : kahnAux tasks (fuel + 1) indeg (t :: rest)
            = t :: kahnAux tasks fuel (relax (adj_list tasks t) indeg rest).1
                (relax (adj_list tasks t) indeg rest).2 := rfl
        rw [hunfold, List.append_cons]
        exact hinv

theorem topo_order_inv {tasks : List Task} (hn : (tasks.map Task.name).Nodup) :
    ∃ indeg', KahnInv tasks (topo_order tasks) [] indeg' := by
  obtain ⟨indeg', h⟩ :=
    kahnAux_inv hn tasks.length [] _ (indegrees tasks) (kahnInv_init hn) (by simp)
  exact ⟨indeg', by simpa [topo_order] using h⟩

theorem topo_order_nodup {tasks : List Task} (hn : (tasks.map Task.name).Nodup) :
    (topo_order tasks).Nodup := by
  obtain ⟨indeg', h⟩ := topo_order_inv hn
  simpa using h.nodup

theorem topo_order_mem_names {tasks : List Task} (hn : (tasks.map Task.name).Nodup) :
    ∀ x ∈ topo_order tasks, ∃ t, t ∈ tasks ∧ t.name = x := by
  obtain ⟨indeg', h⟩ := topo_order_inv hn
  intro x hx
  exact h.mem_names x (by simpa using hx)

theorem topo_order_ordered {tasks : List Task} (hn : (tasks.map Task.name).Nodup) :
    ∀ l₁ x l₂, topo_order tasks = l₁ ++ x :: l₂ →
      ∀ t ∈ tasks, t.name = x → ∀ d ∈ t.depends, d ∈ l₁ := by
  obtain ⟨indeg', h⟩ := topo_order_inv hn
  exact h.ordered

theorem topo_complete {tasks : List Task} (hv : validInput tasks) :
    ∀ t ∈ tasks, t.name ∈ topo_order tasks := by
  have hn := hv.1
  have hsub : topo_order tasks ⊆ tasks.map Task.name := by
    intro x hx
    obtain ⟨u, hu, rfl⟩ := topo_order_mem_names hn x hx
    exact List.mem_map_of_mem Task.name hu
  have hperm := (List.subperm_of_subset (topo_order_nodup hn) hsub).perm_of_length_le
    (by rw [List.length_map, hv.2])
  intro t ht
  exact hperm.mem_iff.mpr (List.mem_map_of_mem Task.name ht)

theorem topo_split {tasks : List Task} (hv : validInput tasks)
    {u : Task} (hu : u ∈ tasks) :
    ∃ l₁ l₂, topo_order tasks = l₁ ++ u.name :: l₂ ∧
      (∀ d ∈ u.depends, d ∈ l₁) ∧ u.name ∉ l₁ ∧ u.name ∉ l₂ := by
  obtain ⟨l₁, l₂, hEq⟩ := List.append_of_mem (topo_complete hv u hu)
  have hord := topo_order_ordered hv.1 l₁ u.name l₂ hEq u hu rfl
  have hnd : (l₁ ++ u.name :: l₂).Nodup := hEq ▸ topo_order_nodup hv.1
  obtain ⟨h₁, h₂, hdisj⟩ := List.nodup_append.mp hnd
  exact ⟨l₁, l₂, hEq, hord,
    fun hc => hdisj hc (List.mem_cons_self _ _),
    (List.nodup_cons.mp h₂).1⟩

end CPM

namespace CPM

/-! ### The forward pass -/

theorem forwardPass_append (tasks : List Task) (l₁ l₂ : List String) :
    ∀ p, forwardPass tasks (l₁ ++ l₂) p = forwardPass tasks l₂ (forwardPass tasks l₁ p) := by
  induction l₁ with
  | nil => intro p; rfl
  | cons t l ih => intro p; simp only [List.cons_append, forwardPass]; exact ih _

theorem forward_fst_keys (tasks : List Task) (l : List String) :
    ∀ p, ((forwardPass tasks l p).1).map Prod.fst = p.1.map Prod.fst ++ l := by
  induction l with
  | nil => intro p; simp [forwardPass]
  | cons t l ih =>
      intro p
      simp only [forwardPass]
      rw [ih]
      simp

theorem forward_snd_keys (tasks : List Task) (l : List String) :
    ∀ p, ((forwardPass tasks l p).2).map Prod.fst = p.2.map Prod.fst ++ l := by
  induction l with
  | nil => intro p; simp [forwardPass]
  | cons t l ih =>
      intro p
      simp only [forwardPass]
      rw [ih]
      simp

theorem lookupN_append_of_mem {l₁ : List (String × Nat)} (l₂ : List (String × Nat))
    {y : String} (hy : y ∈ l₁.map Prod.fst) :
    lookupN (l₁ ++ l₂) y = lookupN l₁ y := by
  induction l₁ with
  | nil => simp at hy
  | cons a l ih =>
      by_cases ha : a.1 = y
      · have hb : (a.1 == y) = true := by simpa using ha
        simp [lookupN, List.find?, hb]
      · have hb : (a.1 == y) = false := by simpa using ha
        have hy' : y ∈ l.map Prod.fst := by
          rcases List.mem_map.mp hy with ⟨q, hq, rfl⟩
          rcases List.mem_cons.mp hq with rfl | hq
          · exact absurd rfl ha
          · exact List.mem_map_of_mem Prod.fst hq
        simpa [lookupN, List.find?, hb] using ih hy'

theorem lookupN_append_of_not_mem {l₁ : List (String × Nat)} (l₂ : List (String × Nat))
    {y : String} (hy : y ∉ l₁.map Prod.fst) :
    lookupN (l₁ ++ l₂) y = lookupN l₂ y := by
  induction l₁ with
  | nil => rfl
  | cons a l ih =>
      have ha : ¬a.1 = y := fun hc => hy (by simp [← hc])
      have hb : (a.1 == y) = false := by simpa using ha
      have hy' : y ∉ l.map Prod.fst := fun hc => hy (by simp [hc])
      simpa [lookupN, List.find?, hb] using ih hy'

theorem forward_snd_lookup_stable (tasks : List Task) (l : List String) :
    ∀ p y, y ∈ p.2.map Prod.fst →
      lookupN (forwardPass tasks l p).2 y = lookupN p.2 y := by
  induction l with
  | nil => intro p y _; rfl
  | cons t l ih =>
      intro p y hy
      simp only [forwardPass]
      rw [ih _ y (by simp [hy]), lookupN_append_of_mem _ hy]

theorem forward_fst_lookup_stable (tasks : List Task) (l : List String) :
    ∀ p y, y ∈ p.1.map Prod.fst →
      lookupN (forwardPass tasks l p).1 y = lookupN p.1 y := by
  induction l with
  | nil => intro p y _; rfl
  | cons t l ih =>
      intro p y hy
      simp only [forwardPass]
      rw [ih _ y (by simp [hy]), lookupN_append_of_mem _ hy]

theorem sval_congr {tasks : List Task} {ed₁ ed₂ : List (String × Nat)} {x : String}
    (h : ∀ d ∈ (task_info tasks x).depends, lookupN ed₁ d = lookupN ed₂ d) :
    sval tasks ed₁ x = sval tasks ed₂ x := by
  unfold sval
  by_cases hdep : (task_info tasks x).depends = []
  · simp [hdep]
  · rw [if_neg hdep, if_neg hdep, List.map_congr_left h]

theorem start_dates_eq (tasks : List Task) :
    start_dates tasks = (forwardPass tasks (topo_order tasks) ([], [])).1 := rfl

theorem end_dates_eq (tasks : List Task) :
    end_dates tasks = (forwardPass tasks (topo_order tasks) ([], [])).2 := rfl

theorem end_dates_keys (tasks : List Task) :
    (end_dates tasks).map Prod.fst = topo_order tasks := by
  rw [end_dates_eq, forward_snd_keys]
  rfl

theorem start_dates_keys (tasks : List Task) :
    (start_dates tasks).map Prod.fst = topo_order tasks := by
  rw [start_dates_eq, forward_fst_keys]
  rfl

theorem forward_value (tasks : List Task) (l₁ l₂ : List String) {x : String}
    (hx1 : x ∉ l₁) :
    lookupN (forwardPass tasks (l₁ ++ x :: l₂) ([], [])).1 x
        = sval tasks (forwardPass tasks l₁ ([], [])).2 x
    ∧ lookupN (forwardPass tasks (l₁ ++ x :: l₂) ([], [])).2 x
        = sval tasks (forwardPass tasks l₁ ([], [])).2 x
            + (task_info tasks x).duration := by
  have hkeys2 : ((forwardPass tasks l₁ ([], [])).2).map Prod.fst = l₁ := by
    rw [forward_snd_keys]; rfl
  have hkeys1 : ((forwardPass tasks l₁ ([], [])).1).map Prod.fst = l₁ := by
    rw [forward_fst_keys]; rfl
  have hmem2 : x ∈ ((forwardPass tasks (l₁ ++ [x]) ([], [])).2).map Prod.fst := by
    rw [forward_snd_keys]; simp
  have hmem1 : x ∈ ((forwardPass tasks (l₁ ++ [x]) ([], [])).1).map Prod.fst := by
    rw [forward_fst_keys]; simp
  have hsplit : forwardPass tasks (l₁ ++ x :: l₂) ([], [])
      = forwardPass tasks l₂ (forwardPass tasks (l₁ ++ [x]) ([], [])) := by
    rw [List.append_cons, forwardPass_append]
  have hstep : forwardPass tasks (l₁ ++ [x]) ([], [])
      = ((forwardPass tasks l₁ ([], [])).1
            ++ [(x, sval tasks (forwardPass tasks l₁ ([], [])).2 x)],
         (forwardPass tasks l₁ ([], [])).2
            ++ [(x, sval tasks (forwardPass tasks l₁ ([], [])).2 x
                  + (task_info tasks x).duration)]) := by
    rw [forwardPass_append]
    rfl
  constructor
  · rw [hsplit, forward_fst_lookup_stable tasks l₂ _ x hmem1, hstep,
      lookupN_append_of_not_mem _ (by rw [hkeys1]; exact hx1)]
    simp [lookupN, List.find?]
  · rw [hsplit, forward_snd_lookup_stable tasks l₂ _ x hmem2, hstep,
      lookupN_append_of_not_mem _ (by rw [hkeys2]; exact hx1)]
    simp [lookupN, List.find?]

/-- The forward-pass recurrences of lines 129–134/240–245, solved for each
task of a valid input: the earliest start is `sval` (0 or the max over the
dependencies' finishes, all read off the final `end_dates`), and the
earliest finish is start plus duration. -/
theorem forward_spec {tasks : List Task} (hv : validInput tasks)
    {u : Task} (hu : u ∈ tasks) :
    lookupN (start_dates tasks) u.name = sval tasks (end_dates tasks) u.name ∧
      lookupN (end_dates tasks) u.name
        = sval tasks (end_dates tasks) u.name + u.duration := by
  obtain ⟨l₁, l₂, hEq, hord, hnotl₁, hnotl₂⟩ := topo_split hv hu
  have hval := forward_value tasks l₁ l₂ hnotl₁
  have hsval : sval tasks (forwardPass tasks l₁ ([], [])).2 u.name
      = sval tasks (end_dates tasks) u.name := by
    apply sval_congr
    intro d hd
    have hd' : d ∈ u.depends := by rwa [task_info_eq hv.1 hu] at hd
    have hdmem : d ∈ ((forwardPass tasks l₁ ([], [])).2).map Prod.fst := by
      rw [forward_snd_keys]
      simpa using hord d hd'
    have hsplit : end_dates tasks
        = (forwardPass tasks (u.name :: l₂) (forwardPass tasks l₁ ([], []))).2 := by
      rw [end_dates_eq, hEq, forwardPass_append]
    rw [hsplit, forward_snd_lookup_stable tasks (u.name :: l₂) _ d hdmem]
  have hED : end_dates tasks = (forwardPass tasks (l₁ ++ u.name :: l₂) ([], [])).2 := by
    rw [end_dates_eq, hEq]
  have hSD : start_dates tasks = (forwardPass tasks (l₁ ++ u.name :: l₂) ([], [])).1 := by
    rw [start_dates_eq, hEq]
  have hsval' : sval tasks (forwardPass tasks l₁ ([], [])).2 u.name
      = sval tasks (forwardPass tasks (l₁ ++ u.name :: l₂) ([], [])).2 u.name := by
    rw [← hED]
    exact hsval
  constructor
  · rw [hSD, hED, ← hsval']
    exact hval.1
  · rw [hED, ← hsval']
    have h2 := hval.2
    rw [task_info_eq hv.1 hu] at h2
    exact h2

end CPM

namespace CPM

/-! ### The backward pass is a fixed point on valid inputs -/

theorem init_le_foldl_max : ∀ (l : List Nat) (i : Nat), i ≤ l.foldl Nat.max i := by
  intro l
  induction l with
  | nil => intro i; exact le_refl i
  | cons b l ih =>
      intro i
      calc i ≤ Nat.max i b := Nat.le_max_left i b
        _ ≤ l.foldl Nat.max (Nat.max i b) := ih _

theorem le_foldl_max {l : List Nat} {a : Nat} (ha : a ∈ l) :
    ∀ i, a ≤ l.foldl Nat.max i := by
  induction l with
  | nil => cases ha
  | cons b l ih =>
      intro i
      rcases List.mem_cons.mp ha with rfl | ha'
      · calc a ≤ Nat.max i a := Nat.le_max_right i a
          _ ≤ l.foldl Nat.max (Nat.max i a) := init_le_foldl_max _ _
      · exact ih ha' _

theorem foldl_min_const {l : List String} {f : String → Nat} {i : Nat}
    (h : ∀ a ∈ l, i ≤ f a) :
    l.foldl (fun acc s => Nat.min acc (f s)) i = i := by
  induction l with
  | nil => rfl
  | cons a l ih =>
      simp only [List.foldl]
      have hmin : Nat.min i (f a) = i :=
        Nat.min_eq_left (h a (List.mem_cons_self a l))
      rw [hmin]
      exact ih (fun b hb => h b (List.mem_cons_of_mem a hb))

theorem lookupN_map_sub (tasks : List Task) {ed : List (String × Nat)} {y : String}
    (hy : y ∈ ed.map Prod.fst) :
    lookupN (ed.map (fun q => (q.1, q.2 - (task_info tasks q.1).duration))) y
      = lookupN ed y - (task_info tasks y).duration := by
  induction ed with
  | nil => simp at hy
  | cons a l ih =>
      by_cases ha : a.1 = y
      · have hb : (a.1 == y) = true := by simpa using ha
        simp only [List.map_cons, lookupN, List.find?, hb]
        simp [ha]
      · have hb : (a.1 == y) = false := by simpa using ha
        have hy' : y ∈ l.map Prod.fst := by
          rcases List.mem_map.mp hy with ⟨q, hq, rfl⟩
          rcases List.mem_cons.mp hq with rfl | hq
          · exact absurd rfl ha
          · exact List.mem_map_of_mem Prod.fst hq
        simpa [lookupN, List.find?, hb] using ih hy'

theorem keys_map_sub (tasks : List Task) (ed : List (String × Nat)) :
    (ed.map (fun q => (q.1, q.2 - (task_info tasks q.1).duration))).map Prod.fst
      = ed.map Prod.fst := by
  rw [List.map_map]
  rfl

theorem map_replace_of_not_mem {l : List (String × Nat)} {x : String}
    (hx : x ∉ l.map Prod.fst) (v : Nat) :
    l.map (fun q => if q.1 == x then (q.1, v) else q) = l := by
  induction l with
  | nil => rfl
  | cons a l ih =>
      have ha : ¬a.1 = x := fun hc => hx (by simp [← hc])
      have hb : (a.1 == x) = false := by simpa using ha
      have hx' : x ∉ l.map Prod.fst := fun hc => hx (by simp [hc])
      simp only [List.map_cons, hb, Bool.false_eq_true, if_false, ih hx']

theorem map_replace_self {l : List (String × Nat)} {x : String} {v : Nat}
    (hk : (l.map Prod.fst).Nodup) (hxv : x ∈ l.map Prod.fst → lookupN l x = v) :
    l.map (fun q => if q.1 == x then (q.1, v) else q) = l := by
  induction l with
  | nil => rfl
  | cons a l ih =>
      have hk_head : a.1 ∉ l.map Prod.fst := by
        rw [List.map_cons, List.nodup_cons] at hk
        exact hk.1
      have hk_tail : (l.map Prod.fst).Nodup := by
        rw [List.map_cons, List.nodup_cons] at hk
        exact hk.2
      by_cases ha : a.1 = x
      · have hb : (a.1 == x) = true := by simpa using ha
        have hval : lookupN (a :: l) x = a.2 := by
          simp [lookupN, List.find?, hb]
        have hv : v = a.2 := by rw [← hxv (by simp [ha]), hval]
        subst hv
        have htail : l.map (fun q => if q.1 == x then (q.1, a.2) else q) = l :=
          map_replace_of_not_mem (ha ▸ hk_head) a.2
        simp only [List.map_cons, hb, if_true, htail]
      · have hb : (a.1 == x) = false := by simpa using ha
        have hxv' : x ∈ l.map Prod.fst → lookupN l x = v := by
          intro hmem
          have := hxv (by simp [hmem])
          simpa [lookupN, List.find?, hb] using this
        simp only [List.map_cons, hb, Bool.false_eq_true, if_false, ih hk_tail hxv']

theorem backwardPass_fixed {tasks : List Task} (hv : validInput tasks) :
    ∀ l, (∀ x ∈ l, x ∈ topo_order tasks) →
      backwardPass tasks l
        (end_dates tasks,
         (end_dates tasks).map (fun q => (q.1, q.2 - (task_info tasks q.1).duration)))
      = (end_dates tasks,
         (end_dates tasks).map (fun q => (q.1, q.2 - (task_info tasks q.1).duration))) := by
  intro l
  induction l with
  | nil => intro _; rfl
  | cons t rest ih =>
      intro hl
      have htmem : t ∈ topo_order tasks := hl t (List.mem_cons_self t rest)
      have hkeys : (end_dates tasks).map Prod.fst = topo_order tasks := end_dates_keys tasks
      have htkey : t ∈ (end_dates tasks).map Prod.fst := by rw [hkeys]; exact htmem
      have hknodup : ((end_dates tasks).map Prod.fst).Nodup := by
        rw [hkeys]; exact topo_order_nodup hv.1
      have hlfT : (adj_list tasks t).foldl
          (fun acc s => Nat.min acc
            (lookupN ((end_dates tasks).map
              (fun q => (q.1, q.2 - (task_info tasks q.1).duration))) s))
          (lookupN (end_dates tasks) t)
          = lookupN (end_dates tasks) t := by
        apply foldl_min_const
        intro s hs
        obtain ⟨u, hu, rfl, htdep⟩ := mem_adj_list.mp hs
        have humem : u.name ∈ (end_dates tasks).map Prod.fst := by
          rw [hkeys]; exact topo_complete hv u hu
        rw [lookupN_map_sub tasks humem, task_info_eq hv.1 hu,
          (forward_spec hv hu).2, Nat.add_sub_cancel]
        have hdep_ne : ¬u.depends = [] := by
          intro hc; rw [hc] at htdep; cases htdep
        unfold sval
        rw [task_info_eq hv.1 hu, if_neg hdep_ne]
        exact le_foldl_max (List.mem_map_of_mem (fun d => lookupN (end_dates tasks) d) htdep) 0
      simp only [backwardPass]
      rw [hlfT,
        map_replace_self hknodup (fun _ => rfl),
        map_replace_self (by rw [keys_map_sub]; exact hknodup)
          (fun hmem => by
            rw [lookupN_map_sub tasks (by rwa [keys_map_sub] at hmem)])]
      exact ih (fun x hx => hl x (List.mem_cons_of_mem t hx))

end CPM

namespace CPM

theorem latest_finish_eq {tasks : List Task} (hv : validInput tasks) :
    latest_finish tasks = end_dates tasks := by
  have hbp := backwardPass_fixed hv (topo_order tasks).reverse
    (fun x hx => List.mem_reverse.mp hx)
  calc latest_finish tasks
      = (backwardPass tasks (topo_order tasks).reverse
          (end_dates tasks,
           (end_dates tasks).map
             (fun q => (q.1, q.2 - (task_info tasks q.1).duration)))).1 := rfl
    _ = end_dates tasks := by rw [hbp]

theorem latest_start_eq {tasks : List Task} (hv : validInput tasks) :
    latest_start tasks
      = (end_dates tasks).map (fun q => (q.1, q.2 - (task_info tasks q.1).duration)) := by
  have hbp := backwardPass_fixed hv (topo_order tasks).reverse
    (fun x hx => List.mem_reverse.mp hx)
  calc latest_start tasks
      = (backwardPass tasks (topo_order tasks).reverse
          (end_dates tasks,
           (end_dates tasks).map
             (fun q => (q.1, q.2 - (task_info tasks q.1).duration)))).2 := rfl
    _ = (end_dates tasks).map
          (fun q => (q.1, q.2 - (task_info tasks q.1).duration)) := by rw [hbp]

/-- On a valid input the backward pass changes nothing: every task keeps
`latestFinish = earliestFinish` and `latestStart = earliestStart`. -/
theorem slack_zero {tasks : List Task} (hv : validInput tasks)
    {u : Task} (hu : u ∈ tasks) :
    lookupN (latest_finish tasks) u.name = lookupN (end_dates tasks) u.name ∧
      lookupN (latest_start tasks) u.name = lookupN (start_dates tasks) u.name := by
  constructor
  · rw [latest_finish_eq hv]
  · rw [latest_start_eq hv,
      lookupN_map_sub tasks
        (show u.name ∈ (end_dates tasks).map Prod.fst by
          rw [end_dates_keys]; exact topo_complete hv u hu),
      task_info_eq hv.1 hu, (forward_spec hv hu).2, (forward_spec hv hu).1,
      Nat.add_sub_cancel]

/-! ### Maximum and extraction lemmas -/

theorem foldl_max_mem : ∀ (l : List Nat) (i : Nat),
    l.foldl Nat.max i = i ∨ l.foldl Nat.max i ∈ l := by
  intro l
  induction l with
  | nil => intro i; left; rfl
  | cons b l ih =>
      intro i
      rcases ih (Nat.max i b) with h | h
      · by_cases hib : b ≤ i
        · left
          have hmax : Nat.max i b = i := Nat.max_eq_left hib
          rw [List.foldl_cons, h, hmax]
        · right
          have hmax : Nat.max i b = b := Nat.max_eq_right (Nat.le_of_not_le hib)
          rw [List.foldl_cons, h, hmax]
          exact List.mem_cons_self b l
      · right
        exact List.mem_cons_of_mem b h

theorem values_max_spec {vs : List Nat} {M : Nat} (h : values_max vs = some M) :
    M ∈ vs ∧ ∀ a ∈ vs, a ≤ M := by
  match vs, h with
  | v :: vs, h =>
    have hM : vs.foldl Nat.max v = M := by simpa [values_max] using h
    constructor
    · rcases foldl_max_mem vs v with h' | h'
      · rw [← hM, h']
        exact List.mem_cons_self v vs
      · rw [← hM]
        exact List.mem_cons_of_mem v h'
    · intro a ha
      rcases List.mem_cons.mp ha with rfl | ha'
      · rw [← hM]
        exact init_le_foldl_max vs a
      · rw [← hM]
        exact le_foldl_max ha' v

theorem values_max_isSome {vs : List Nat} (h : vs ≠ []) :
    ∃ M, values_max vs = some M := by
  match vs with
  | [] => exact absurd rfl h
  | v :: vs => exact ⟨vs.foldl Nat.max v, rfl⟩

theorem lookupN_of_mem {l : List (String × Nat)} (hk : (l.map Prod.fst).Nodup)
    {q : String × Nat} (hq : q ∈ l) : lookupN l q.1 = q.2 := by
  induction l with
  | nil => cases hq
  | cons a l ih =>
      have hk_head : a.1 ∉ l.map Prod.fst := by
        rw [List.map_cons, List.nodup_cons] at hk
        exact hk.1
      have hk_tail : (l.map Prod.fst).Nodup := by
        rw [List.map_cons, List.nodup_cons] at hk
        exact hk.2
      rcases List.mem_cons.mp hq with rfl | hq'
      · simp [lookupN, List.find?]
      · have ha : ¬a.1 = q.1 :=
          fun hc => hk_head (hc ▸ List.mem_map_of_mem Prod.fst hq')
        have hb : (a.1 == q.1) = false := by simpa using ha
        simpa [lookupN, List.find?, hb] using ih hk_tail hq'

theorem lookupN_mem_values {l : List (String × Nat)} {y : String}
    (hy : y ∈ l.map Prod.fst) : lookupN l y ∈ l.map Prod.snd := by
  induction l with
  | nil => simp at hy
  | cons a l ih =>
      by_cases ha : a.1 = y
      · have hb : (a.1 == y) = true := by simpa using ha
        simp [lookupN, List.find?, hb]
      · have hb : (a.1 == y) = false := by simpa using ha
        have hy' : y ∈ l.map Prod.fst := by
          rcases List.mem_map.mp hy with ⟨q, hq, rfl⟩
          rcases List.mem_cons.mp hq with rfl | hq
          · exact absurd rfl ha
          · exact List.mem_map_of_mem Prod.fst hq
        simp only [lookupN, List.find?, hb] at ih ⊢
        exact List.mem_cons_of_mem _ (ih hy')

end CPM

namespace CPM

theorem take_eq_prefix {l l₁ l₂ : List String} {x : String} {k : Nat}
    (hEq : l = l₁ ++ x :: l₂) (h1 : x ∉ l₁) (h2 : x ∉ l₂)
    (hk : k < l.length) (hx : l.get ⟨k, hk⟩ = x) :
    l.take k = l₁ := by
  subst hEq
  rw [List.get_eq_getElem] at hx
  rcases Nat.lt_trichotomy k l₁.length with hlt | heq | hgt
  · exfalso
    rw [List.getElem_append_left hlt] at hx
    exact h1 (hx ▸ List.getElem_mem hlt)
  · rw [heq, List.take_left]
  · exfalso
    have hle : l₁.length ≤ k := Nat.le_of_lt hgt
    rw [List.getElem_append_right hle] at hx
    obtain ⟨j, hj⟩ : ∃ j, k - l₁.length = j + 1 := ⟨k - l₁.length - 1, by omega⟩
    simp only [hj, List.getElem_cons_succ] at hx
    refine h2 (hx ▸ List.getElem_mem ?_)
    rw [List.length_append, List.length_cons] at hk
    omega

theorem take_succ_reverse {l : List String} {k : Nat} (hk : k < l.length) :
    (l.take (k + 1)).reverse = l.get ⟨k, hk⟩ :: (l.take k).reverse := by
  rw [List.take_succ, List.getElem?_eq_getElem hk]
  simp [List.get_eq_getElem]

/-- The extraction loop of lines 146–153 keeps the running target end time
equal to the sum of durations it still has to collect: the collected
durations sum to the initial target.  The hypothesis carries the loop's
working invariant — the target is 0 or witnessed as some remaining task's
earliest finish. -/
theorem extract_sum {tasks : List Task} (hv : validInput tasks) :
    ∀ k, k ≤ (topo_order tasks).length → ∀ endTime : Nat,
      (endTime = 0 ∨
        ∃ x ∈ (topo_order tasks).take k, lookupN (end_dates tasks) x = endTime) →
      ((extractLoop tasks (end_dates tasks)
          ((topo_order tasks).take k).reverse endTime).map
        (fun x => (task_info tasks x).duration)).sum = endTime := by
  intro k
  induction k with
  | zero =>
      intro _ endTime hP
      rcases hP with h0 | ⟨x, hx, -⟩
      · simpa [extractLoop] using h0.symm
      · simp at hx
  | succ k ih =>
      intro hk endTime hP
      have hk' : k < (topo_order tasks).length := hk
      rw [take_succ_reverse hk']
      obtain ⟨u, hu, hux⟩ := topo_order_mem_names hv.1
        ((topo_order tasks).get ⟨k, hk'⟩) (List.get_mem _ _ _)
      by_cases hsel :
          lookupN (end_dates tasks) ((topo_order tasks).get ⟨k, hk'⟩) = endTime
      · simp only [extractLoop, if_pos hsel]
        obtain ⟨l₁, l₂, hEq, hord, h1, h2⟩ := topo_split hv hu
        have htake : (topo_order tasks).take k = l₁ :=
          take_eq_prefix hEq h1 h2 hk' hux.symm
        have hET : endTime = sval tasks (end_dates tasks) u.name + u.duration := by
          rw [← hsel, hux.symm, (forward_spec hv hu).2]
        have hdur : (task_info tasks ((topo_order tasks).get ⟨k, hk'⟩)).duration
            = u.duration := by
          rw [hux.symm, task_info_eq hv.1 hu]
        have hrec : ((extractLoop tasks (end_dates tasks)
              ((topo_order tasks).take k).reverse
              (endTime - (task_info tasks ((topo_order tasks).get ⟨k, hk'⟩)).duration)).map
            (fun x => (task_info tasks x).duration)).sum
            = endTime - (task_info tasks ((topo_order tasks).get ⟨k, hk'⟩)).duration := by
          apply ih (Nat.le_of_lt hk')
          rw [hdur, hET, Nat.add_sub_cancel]
          by_cases hdep : u.depends = []
          · left
            unfold sval
            rw [task_info_eq hv.1 hu, if_pos hdep]
          · have hform : sval tasks (end_dates tasks) u.name
                = (u.depends.map (fun d => lookupN (end_dates tasks) d)).foldl Nat.max 0 := by
              unfold sval
              rw [task_info_eq hv.1 hu, if_neg hdep]
            rcases foldl_max_mem (u.depends.map (fun d => lookupN (end_dates tasks) d)) 0
              with hzero | hmem
            · left
              rw [hform, hzero]
            · right
              obtain ⟨d, hd, hd2⟩ := List.mem_map.mp hmem
              refine ⟨d, htake ▸ hord d hd, ?_⟩
              rw [hform, hd2]
        rw [List.map_cons, List.sum_cons, hrec, hdur]
        rw [hET, Nat.add_sub_cancel]
        omega
      · simp only [extractLoop, if_neg hsel]
        apply ih (Nat.le_of_lt hk')
        rcases hP with h0 | ⟨y, hy, hyl⟩
        · exact Or.inl h0
        · rw [List.take_succ, List.getElem?_eq_getElem hk'] at hy
          rcases List.mem_append.mp hy with hy | hy
          · exact Or.inr ⟨y, hy, hyl⟩
          · exfalso
            apply hsel
            have hyx : y = (topo_order tasks).get ⟨k, hk'⟩ := by
              rw [List.get_eq_getElem]
              simpa using hy
            rw [← hyx]
            exact hyl

theorem keys_map_replace (l : List (String × Nat)) (t : String) (v : Nat) :
    (l.map (fun q => if q.1 == t then (q.1, v) else q)).map Prod.fst
      = l.map Prod.fst := by
  rw [List.map_map]
  apply List.map_congr_left
  intro q _
  by_cases h : q.1 = t
  · simp [h]
  · simp [h]

theorem lookupE_eq_none_of_not_mem {l : List (String × Nat)} {x : String}
    (h : x ∉ l.map Prod.fst) : lookupE l x = none := by
  have hf : l.find? (fun p => p.1 == x) = none := by
    apply List.find?_eq_none.mpr
    intro q hq
    simp only [beq_iff_eq]
    intro hc
    exact h (hc ▸ List.mem_map_of_mem Prod.fst hq)
  simp [lookupE, hf]

theorem lookupE_mem {l : List (String × Nat)} {x : String}
    (h : x ∈ l.map Prod.fst) : ∃ v, lookupE l x = some v := by
  induction l with
  | nil => simp at h
  | cons a l ih =>
      by_cases ha : a.1 = x
      · have hb : (a.1 == x) = true := by simpa using ha
        exact ⟨a.2, by simp [lookupE, List.find?, hb]⟩
      · have hb : (a.1 == x) = false := by simpa using ha
        have h2 : x ∈ l.map Prod.fst := by
          rcases List.mem_map.mp h with ⟨q, hq, rfl⟩
          rcases List.mem_cons.mp hq with rfl | hq
          · exact absurd rfl ha
          · exact List.mem_map_of_mem Prod.fst hq
        obtain ⟨v, hv⟩ := ih h2
        exact ⟨v, by simpa [lookupE, List.find?, hb] using hv⟩

theorem foldMinE_isSome_iff (ls : List (String × Nat)) :
    ∀ (ns : List String) (acc : Nat),
      (∃ m, foldMinE ls ns acc = some m) ↔ ∀ s ∈ ns, s ∈ ls.map Prod.fst := by
  intro ns
  induction ns with
  | nil =>
      intro acc
      simp [foldMinE]
  | cons s rest ih =>
      intro acc
      by_cases hs : s ∈ ls.map Prod.fst
      · obtain ⟨v, hv⟩ := lookupE_mem hs
        simp only [foldMinE, hv]
        constructor
        · intro hm u hu
          rcases List.mem_cons.mp hu with rfl | hu2
          · exact hs
          · exact ((ih _).mp hm) u hu2
        · intro hall
          exact (ih _).mpr (fun u hu => hall u (List.mem_cons_of_mem s hu))
      · have hnone := lookupE_eq_none_of_not_mem hs
        simp only [foldMinE, hnone]
        constructor
        · rintro ⟨m, hm⟩
          cases hm
        · intro hall
          exact absurd (hall s (List.mem_cons_self s rest)) hs

theorem backwardPassE_isSome {tasks : List Task} :
    ∀ (l : List String) (p : List (String × Nat) × List (String × Nat)),
      (∀ t ∈ l, ∀ s ∈ adj_list tasks t, s ∈ p.2.map Prod.fst) →
      ∃ q, backwardPassE tasks l p = some q := by
  intro l
  induction l with
  | nil =>
      intro p _
      exact ⟨p, rfl⟩
  | cons t rest ih =>
      intro p h
      obtain ⟨m, hm⟩ := (foldMinE_isSome_iff p.2 (adj_list tasks t) (lookupN p.1 t)).mpr
        (h t (List.mem_cons_self t rest))
      simp only [backwardPassE, hm]
      apply ih
      intro u hu s hs
      rw [keys_map_replace]
      exact h u (List.mem_cons_of_mem t hu) s hs

theorem backwardPassE_eq_none {tasks : List Task} :
    ∀ (l : List String) (p : List (String × Nat) × List (String × Nat)),
      (∃ t, t ∈ l ∧ ∃ s, s ∈ adj_list tasks t ∧ s ∉ p.2.map Prod.fst) →
      backwardPassE tasks l p = none := by
  intro l
  induction l with
  | nil =>
      rintro p ⟨t, ht, -⟩
      cases ht
  | cons t rest ih =>
      rintro p ⟨u, hu, s, hs, hsmiss⟩
      cases hf : foldMinE p.2 (adj_list tasks t) (lookupN p.1 t) with
      | none => simp [backwardPassE, hf]
      | some m =>
          simp only [backwardPassE, hf]
          rcases List.mem_cons.mp hu with rfl | hu2
          · exact absurd (((foldMinE_isSome_iff _ _ _).mp ⟨m, hf⟩) s hs) hsmiss
          · apply ih
            refine ⟨u, hu2, s, hs, ?_⟩
            rw [keys_map_replace]
            exact hsmiss

/-- `calculate_critical_path` unfolded to its exception case split. -/
theorem calculate_eq_match (tasks : List Task) :
    calculate_critical_path tasks
      = match backwardPassE tasks (topo_order tasks).reverse
            ((forwardPass tasks (topo_order tasks) ([], [])).2,
             ((forwardPass tasks (topo_order tasks) ([], [])).2).map
               (fun q => (q.1, q.2 - (task_info tasks q.1).duration))) with
        | none => none
        | some _ =>
            match values_max (((forwardPass tasks (topo_order tasks) ([], [])).2).map
                (fun p => p.2)) with
            | none => none
            | some endTime =>
                some ((extractLoop tasks (forwardPass tasks (topo_order tasks) ([], [])).2
                  (topo_order tasks).reverse endTime).reverse, endTime) := rfl

theorem calculate_of_bw_some {tasks : List Task}
    {q : List (String × Nat) × List (String × Nat)}
    (hbw : backwardPassE tasks (topo_order tasks).reverse
        ((forwardPass tasks (topo_order tasks) ([], [])).2,
         ((forwardPass tasks (topo_order tasks) ([], [])).2).map
           (fun q => (q.1, q.2 - (task_info tasks q.1).duration))) = some q) :
    calculate_critical_path tasks
      = match values_max (((forwardPass tasks (topo_order tasks) ([], [])).2).map
          (fun p => p.2)) with
        | none => none
        | some endTime =>
            some ((extractLoop tasks (forwardPass tasks (topo_order tasks) ([], [])).2
              (topo_order tasks).reverse endTime).reverse, endTime) := by
  rw [calculate_eq_match, hbw]

theorem calculate_of_bw_none {tasks : List Task}
    (hbw : backwardPassE tasks (topo_order tasks).reverse
        ((forwardPass tasks (topo_order tasks) ([], [])).2,
         ((forwardPass tasks (topo_order tasks) ([], [])).2).map
           (fun q => (q.1, q.2 - (task_info tasks q.1).duration))) = none) :
    calculate_critical_path tasks = none := by
  rw [calculate_eq_match, hbw]

/-- When every successor of a scheduled task is itself scheduled, the
backward block of `calculate_critical_path` completes without `KeyError`. -/
theorem calculate_bw_some_of_closed {tasks : List Task}
    (hgood : ∀ x ∈ topo_order tasks, ∀ s ∈ adj_list tasks x, s ∈ topo_order tasks) :
    ∃ q, backwardPassE tasks (topo_order tasks).reverse
        ((forwardPass tasks (topo_order tasks) ([], [])).2,
         ((forwardPass tasks (topo_order tasks) ([], [])).2).map
           (fun q => (q.1, q.2 - (task_info tasks q.1).duration))) = some q := by
  apply backwardPassE_isSome
  intro t ht s hs
  show s ∈ (((forwardPass tasks (topo_order tasks) ([], [])).2).map
      (fun q => (q.1, q.2 - (task_info tasks q.1).duration))).map Prod.fst
  rw [keys_map_sub, forward_snd_keys]
  exact List.mem_append_right _ (hgood t (List.mem_reverse.mp ht) s hs)

/-- When some scheduled task has an unscheduled successor, the backward
block of `calculate_critical_path` hits the missing `latest_start` key. -/
theorem calculate_bw_none_of_open {tasks : List Task}
    (hbad : ∃ x, x ∈ topo_order tasks ∧ ∃ s, s ∈ adj_list tasks x ∧ s ∉ topo_order tasks) :
    backwardPassE tasks (topo_order tasks).reverse
        ((forwardPass tasks (topo_order tasks) ([], [])).2,
         ((forwardPass tasks (topo_order tasks) ([], [])).2).map
           (fun q => (q.1, q.2 - (task_info tasks q.1).duration))) = none := by
  apply backwardPassE_eq_none
  obtain ⟨x, hx, t, ht, htmiss⟩ := hbad
  refine ⟨x, List.mem_reverse.mpr hx, t, ht, ?_⟩
  show t ∉ (((forwardPass tasks (topo_order tasks) ([], [])).2).map
      (fun q => (q.1, q.2 - (task_info tasks q.1).duration))).map Prod.fst
  rw [keys_map_sub, forward_snd_keys]
  simpa using htmiss

/-- If the successors of scheduled tasks are all scheduled and at least
one task is scheduled, `calculate_critical_path` returns a result: both
the `KeyError` of the backward block and the `ValueError` of `max()` are
avoided. -/
theorem calculate_isSome_of_closed {tasks : List Task}
    (hgood : ∀ x ∈ topo_order tasks, ∀ s ∈ adj_list tasks x, s ∈ topo_order tasks)
    (hne : topo_order tasks ≠ []) :
    ∃ r, calculate_critical_path tasks = some r := by
  obtain ⟨q0, hbw⟩ := calculate_bw_some_of_closed hgood
  have hedne : ((forwardPass tasks (topo_order tasks) ([], [])).2).map
      (fun p => p.2) ≠ [] := by
    intro hc
    have hnil : (forwardPass tasks (topo_order tasks) ([], [])).2 = [] :=
      List.map_eq_nil_iff.mp hc
    apply hne
    have hkeys := forward_snd_keys tasks (topo_order tasks) ([], [])
    rw [hnil] at hkeys
    simpa using hkeys.symm
  obtain ⟨M, hM⟩ := values_max_isSome hedne
  refine ⟨((extractLoop tasks (forwardPass tasks (topo_order tasks) ([], [])).2
      (topo_order tasks).reverse M).reverse, M), ?_⟩
  rw [calculate_of_bw_some hbw, hM]

/-- `calculate_critical_path` on a valid non-empty input: it returns a
path and a total; the total is `max(end_dates.values())`; and the path's
durations sum to the total. -/
theorem calculate_spec {tasks : List Task} (hv : validInput tasks) (hne : tasks ≠ []) :
    ∃ path total, calculate_critical_path tasks = some (path, total)
      ∧ (path.map (fun x => (task_info tasks x).duration)).sum = total
      ∧ values_max ((end_dates tasks).map (fun p => p.2)) = some total := by
  have hlen : (topo_order tasks).length = tasks.length := hv.2
  have htne : topo_order tasks ≠ [] := by
    intro hc
    apply hne
    rw [hc] at hlen
    exact List.length_eq_zero.mp hlen.symm
  have hedne : (end_dates tasks).map (fun p => p.2) ≠ [] := by
    intro hc
    have hednil : end_dates tasks = [] := List.map_eq_nil_iff.mp hc
    apply htne
    rw [← end_dates_keys tasks, hednil]
    rfl
  obtain ⟨M, hM⟩ := values_max_isSome hedne
  have hM2 : values_max (((forwardPass tasks (topo_order tasks) ([], [])).2).map
      (fun p => p.2)) = some M := by
    rw [← end_dates_eq]
    exact hM
  have hgood : ∀ x ∈ topo_order tasks, ∀ s ∈ adj_list tasks x, s ∈ topo_order tasks := by
    intro x hx s hs
    obtain ⟨u, hu, rfl, -⟩ := mem_adj_list.mp hs
    exact topo_complete hv u hu
  obtain ⟨q0, hbw⟩ := calculate_bw_some_of_closed hgood
  have hcalc : calculate_critical_path tasks
      = some ((extractLoop tasks (end_dates tasks)
          (topo_order tasks).reverse M).reverse, M) := by
    rw [calculate_of_bw_some hbw, hM2]
    rfl
  obtain ⟨hMmem, -⟩ := values_max_spec hM
  obtain ⟨q, hq, hq2⟩ := List.mem_map.mp hMmem
  have hknodup : ((end_dates tasks).map Prod.fst).Nodup := by
    rw [end_dates_keys]
    exact topo_order_nodup hv.1
  have hlk : lookupN (end_dates tasks) q.1 = M := by
    rw [lookupN_of_mem hknodup hq, hq2]
  have hq1mem : q.1 ∈ topo_order tasks := by
    rw [← end_dates_keys tasks]
    exact List.mem_map_of_mem Prod.fst hq
  have hsum := extract_sum hv (topo_order tasks).length (le_refl _) M
    (Or.inr ⟨q.1, by rw [List.take_length]; exact hq1mem, hlk⟩)
  rw [List.take_length] at hsum
  refine ⟨_, M, hcalc, ?_, hM⟩
  rw [List.map_reverse, List.sum_reverse]
  exact hsum

end CPM

namespace CPM

/-! ### Concrete inputs used by the claim theorems -/

/-- Scenario 1 of the spec (§8), in raw form. -/
def sampleTasks : List Task :=
  [parse_task "T1" "-" 5, parse_task "T2" "T1" 3,
   parse_task "T3" "T1" 2, parse_task "T4" "T2, T3" 4]

/-- A task set with a self-dependency cycle plus one resolvable task. -/
def cycTasks : List Task := [⟨"A", ["A"], 1⟩, ⟨"B", [], 2⟩]

/-- Two independent tasks with different durations. -/
def twoIndep : List Task := [⟨"A", [], 3⟩, ⟨"B", [], 5⟩]

/-- A cyclic task set in which the resolvable task `A` has the cyclic
task `B` as successor: the backward block then reads
`latest_start["B"]`, which was never written — Python raises `KeyError`. -/
def cycTasks2 : List Task := [⟨"A", [], 1⟩, ⟨"B", ["A", "B"], 1⟩]

end CPM

namespace CPM

/-! ### The claims -/

/-- C1 counterexample: `cycTasks` contains the self-dependency `A → A`,
yet the engine raises no error and returns a schedule and a critical path
covering only the resolvable task `B` — the cyclic task is silently
dropped from the topological order and from every returned dict. -/
theorem C1_counterexample :
    (⟨"A", ["A"], 1⟩ : Task) ∈ cycTasks ∧
      "A" ∈ (⟨"A", ["A"], 1⟩ : Task).depends ∧
      topo_order cycTasks = ["B"] ∧
      calculate_critical_path cycTasks = some (["B"], 2) ∧
      find_earliest_latest_start_finish cycTasks
        = ([("B", 0)], [("B", 2)], [("B", 0)], [("B", 2)]) := by
  decide

/-- C1 (amended): on a duplicate-free task set whose topological order is
incomplete — the code's own criterion for a cycle or unresolved reference
— no `CycleError` naming the unresolved tasks is ever produced: the
unresolved tasks are silently missing from `topo_order` (and hence from
the schedule), and the engine proceeds into the forward and backward
passes regardless.  The observable outcome then splits on the dependency
structure: if no scheduled task has an unscheduled successor (and at
least one task resolved), a partial critical path and total are returned
with no error at all; if some scheduled task does have an unscheduled
successor, the dead-store backward block raises an unrelated uncaught
`KeyError` (`none`) — still not a `CycleError` and still naming nothing. -/
theorem C1_cycle_silently_dropped (tasks : List Task)
    (hn : (tasks.map Task.name).Nodup)
    (hcyc : (topo_order tasks).length < tasks.length) :
    (∃ t, t ∈ tasks ∧ t.name ∉ topo_order tasks) ∧
      ((∀ x ∈ topo_order tasks, ∀ s ∈ adj_list tasks x, s ∈ topo_order tasks) →
        topo_order tasks ≠ [] →
        ∃ r, calculate_critical_path tasks = some r) ∧
      ((∃ x, x ∈ topo_order tasks ∧ ∃ s, s ∈ adj_list tasks x ∧ s ∉ topo_order tasks) →
        calculate_critical_path tasks = none) := by
  refine ⟨?_, ?_, ?_⟩
  · by_contra hno
    push_neg at hno
    have hsub : tasks.map Task.name ⊆ topo_order tasks := by
      intro x hx
      obtain ⟨t, ht, rfl⟩ := List.mem_map.mp hx
      exact hno t ht
    have := (List.subperm_of_subset hn hsub).length_le
    rw [List.length_map] at this
    omega
  · exact fun hgood hne => calculate_isSome_of_closed hgood hne
  · exact fun hbad => calculate_of_bw_none (calculate_bw_none_of_open hbad)

/-- Witness for C1: at `cycTasks` the cyclic task is dropped and a
partial schedule is returned; at `cycTasks2` the resolved task has the
cyclic task as successor and the engine dies with the `KeyError`. -/
theorem C1_witness :
    (∃ t, t ∈ cycTasks ∧ t.name ∉ topo_order cycTasks) ∧
      (∃ r, calculate_critical_path cycTasks = some r) ∧
      calculate_critical_path cycTasks2 = none :=
  ⟨(C1_cycle_silently_dropped cycTasks (by decide) (by decide)).1,
   (C1_cycle_silently_dropped cycTasks (by decide) (by decide)).2.1
     (by decide) (by decide),
   (C1_cycle_silently_dropped cycTasks2 (by decide) (by decide)).2.2 (by decide)⟩

/-- C2 counterexample: in `twoIndep` the task `A` has no successors, the
project end (`max earliestFinish`) is 5, yet `A` ends the backward pass
with `latestFinish = 3`, its own earliest finish — not the project end. -/
theorem C2_counterexample :
    validInput twoIndep ∧
      adj_list twoIndep "A" = [] ∧
      values_max ((end_dates twoIndep).map (fun p => p.2)) = some 5 ∧
      lookupN (latest_finish twoIndep) "A" = 3 ∧
      lookupN (latest_finish twoIndep) "A" ≠ 5 := by
  decide

/-- C2 (amended): on a valid input, a task with no successors ends the
backward pass with `latestFinish` equal to its own `earliestFinish` (the
initialisation value of line 248), not to the project end. -/
theorem C2_no_successor_keeps_own_finish (tasks : List Task) (hv : validInput tasks)
    (u : Task) (hu : u ∈ tasks) (hsucc : adj_list tasks u.name = []) :
    lookupN (latest_finish tasks) u.name = lookupN (end_dates tasks) u.name :=
  (slack_zero hv hu).1

/-- Witness for C2 at the concrete two-task input. -/
theorem C2_witness :
    lookupN (latest_finish twoIndep) "A" = lookupN (end_dates twoIndep) "A" :=
  C2_no_successor_keeps_own_finish twoIndep (by decide) ⟨"A", [], 3⟩ (by decide) (by decide)

/-- C3: the backward pass is vacuous on every valid input: each task's
latest start equals its earliest start and its latest finish equals its
earliest finish, so every task — not only critical-path tasks — has zero
slack. -/
theorem C3_backward_pass_vacuous (tasks : List Task) (hv : validInput tasks)
    (u : Task) (hu : u ∈ tasks) :
    lookupN (latest_start tasks) u.name = lookupN (start_dates tasks) u.name ∧
      lookupN (latest_finish tasks) u.name = lookupN (end_dates tasks) u.name :=
  ⟨(slack_zero hv hu).2, (slack_zero hv hu).1⟩

/-- Witness for C3 at the sample scenario. -/
theorem C3_witness :
    lookupN (latest_start sampleTasks) "T2" = lookupN (start_dates sampleTasks) "T2" ∧
      lookupN (latest_finish sampleTasks) "T2" = lookupN (end_dates sampleTasks) "T2" :=
  C3_backward_pass_vacuous sampleTasks (by decide) (parse_task "T2" "T1" 3) (by decide)

/-- C5: on a valid non-empty input the returned total duration is the
maximum earliest finish over all tasks, and the durations of the tasks on
the extracted critical path sum to exactly that total. -/
theorem C5_critical_path_duration_law (tasks : List Task)
    (hv : validInput tasks) (hne : tasks ≠ []) :
    ∃ path total, calculate_critical_path tasks = some (path, total)
      ∧ (path.map (fun x => (task_info tasks x).duration)).sum = total
      ∧ values_max ((end_dates tasks).map (fun p => p.2)) = some total
      ∧ (∃ t, t ∈ tasks ∧ lookupN (end_dates tasks) t.name = total)
      ∧ ∀ t ∈ tasks, lookupN (end_dates tasks) t.name ≤ total := by
  obtain ⟨path, total, h1, h2, h3⟩ := calculate_spec hv hne
  have hknodup : ((end_dates tasks).map Prod.fst).Nodup := by
    rw [end_dates_keys]
    exact topo_order_nodup hv.1
  obtain ⟨hMmem, hMub⟩ := values_max_spec h3
  refine ⟨path, total, h1, h2, h3, ?_, ?_⟩
  · obtain ⟨q, hq, hq2⟩ := List.mem_map.mp hMmem
    have hq1 : q.1 ∈ topo_order tasks := by
      rw [← end_dates_keys tasks]
      exact List.mem_map_of_mem Prod.fst hq
    obtain ⟨u, hu, hu1⟩ := topo_order_mem_names hv.1 q.1 hq1
    refine ⟨u, hu, ?_⟩
    rw [hu1, lookupN_of_mem hknodup hq, hq2]
  · intro t ht
    apply hMub
    apply lookupN_mem_values
    rw [end_dates_keys]
    exact topo_complete hv t ht

/-- Witness for C5 at the sample scenario. -/
theorem C5_witness :
    ∃ path total, calculate_critical_path sampleTasks = some (path, total)
      ∧ (path.map (fun x => (task_info sampleTasks x).duration)).sum = total
      ∧ values_max ((end_dates sampleTasks).map (fun p => p.2)) = some total
      ∧ (∃ t, t ∈ sampleTasks ∧ lookupN (end_dates sampleTasks) t.name = total)
      ∧ ∀ t ∈ sampleTasks, lookupN (end_dates sampleTasks) t.name ≤ total :=
  C5_critical_path_duration_law sampleTasks (by decide) (by decide)

/-- C6: the forward pass computes, for every task of a valid input,
`earliestStart = 0` without dependencies and otherwise the maximum of the
dependencies' earliest finishes, and `earliestFinish = earliestStart +
duration`. -/
theorem C6_forward_pass_recurrence (tasks : List Task) (hv : validInput tasks)
    (t : Task) (ht : t ∈ tasks) :
    lookupN (start_dates tasks) t.name
        = (if t.depends = [] then 0
           else (t.depends.map (fun d => lookupN (end_dates tasks) d)).foldl Nat.max 0)
      ∧ lookupN (end_dates tasks) t.name
          = lookupN (start_dates tasks) t.name + t.duration := by
  have h := forward_spec hv ht
  constructor
  · rw [h.1]
    unfold sval
    rw [task_info_eq hv.1 ht]
  · rw [h.2, h.1]

/-- Witness for C6 at the sample scenario. -/
theorem C6_witness :
    lookupN (start_dates sampleTasks) "T4"
        = (if (parse_task "T4" "T2, T3" 4).depends = [] then 0
           else ((parse_task "T4" "T2, T3" 4).depends.map
              (fun d => lookupN (end_dates sampleTasks) d)).foldl Nat.max 0)
      ∧ lookupN (end_dates sampleTasks) "T4"
          = lookupN (start_dates sampleTasks) "T4" + 4 :=
  C6_forward_pass_recurrence sampleTasks (by decide) (parse_task "T4" "T2, T3" 4) (by decide)

/-- C7: forward/backward consistency — on every valid input each task has
`earliestStart ≤ latestStart` and `earliestFinish ≤ latestFinish` (indeed
with equality, by C3). -/
theorem C7_forward_backward_consistency (tasks : List Task) (hv : validInput tasks)
    (t : Task) (ht : t ∈ tasks) :
    lookupN (start_dates tasks) t.name ≤ lookupN (latest_start tasks) t.name ∧
      lookupN (end_dates tasks) t.name ≤ lookupN (latest_finish tasks) t.name := by
  have h := slack_zero hv ht
  exact ⟨Nat.le_of_eq h.2.symm, Nat.le_of_eq h.1.symm⟩

/-- Witness for C7 at the sample scenario. -/
theorem C7_witness :
    lookupN (start_dates sampleTasks) "T3" ≤ lookupN (latest_start sampleTasks) "T3" ∧
      lookupN (end_dates sampleTasks) "T3" ≤ lookupN (latest_finish sampleTasks) "T3" :=
  C7_forward_backward_consistency sampleTasks (by decide) (parse_task "T3" "T1" 2) (by decide)

/-- C8: topological validity — in the order produced by Kahn's algorithm
on a valid input, every dependency of a task occupies a strictly earlier
position than the task itself. -/
theorem C8_topological_validity (tasks : List Task) (hv : validInput tasks)
    (t : Task) (ht : t ∈ tasks) (d : String) (hd : d ∈ t.depends) :
    ∃ i j, ∃ (hi : i < (topo_order tasks).length) (hj : j < (topo_order tasks).length),
      (topo_order tasks).get ⟨i, hi⟩ = d ∧
      (topo_order tasks).get ⟨j, hj⟩ = t.name ∧ i < j := by
  obtain ⟨l₁, l₂, hEq, hord, h1, h2⟩ := topo_split hv ht
  obtain ⟨⟨i, hi⟩, hget⟩ := List.mem_iff_get.mp (hord d hd)
  have hilen : i < (topo_order tasks).length := by
    rw [hEq, List.length_append, List.length_cons]
    omega
  have hjlen : l₁.length < (topo_order tasks).length := by
    rw [hEq, List.length_append, List.length_cons]
    omega
  refine ⟨i, l₁.length, hilen, hjlen, ?_, ?_, hi⟩
  · simp only [hEq, List.get_eq_getElem]
    rw [List.getElem_append_left hi]
    rw [List.get_eq_getElem] at hget
    exact hget
  · simp only [hEq, List.get_eq_getElem]
    rw [List.getElem_append_right (Nat.le_refl l₁.length)]
    simp

/-- Witness for C8 at the sample scenario. -/
theorem C8_witness :
    ∃ i j, ∃ (hi : i < (topo_order sampleTasks).length)
        (hj : j < (topo_order sampleTasks).length),
      (topo_order sampleTasks).get ⟨i, hi⟩ = "T1" ∧
      (topo_order sampleTasks).get ⟨j, hj⟩ = "T2" ∧ i < j :=
  C8_topological_validity sampleTasks (by decide) (parse_task "T2" "T1" 3) (by decide)
    "T1" (by decide)

/-- C9: the sample scenario — earliest finishes 5, 8, 7, 12; critical
path `[T1, T2, T4]`; total duration 12. -/
theorem C9_sample_scenario :
    lookupN (end_dates sampleTasks) "T1" = 5 ∧
      lookupN (end_dates sampleTasks) "T2" = 8 ∧
      lookupN (end_dates sampleTasks) "T3" = 7 ∧
      lookupN (end_dates sampleTasks) "T4" = 12 ∧
      calculate_critical_path sampleTasks = some (["T1", "T2", "T4"], 12) := by
  decide

/-- C10: with no tasks supplied, the "Calculate and Draw" handler returns
before invoking the engine: the caller observes a no-op — no schedule
rows, no critical path, and in particular no error or exception. -/
theorem C10_empty_input_noop :
    on_calculate_and_draw [] = EngineOutcome.noOp ∧
      on_calculate_and_draw [] ≠ EngineOutcome.failure :=
  ⟨rfl, fun h => EngineOutcome.noConfusion h⟩

end CPM
